import Mathlib

/-!
Verification of the ampbench rule-execution engine: a shallow embedding of
the linter core (status/result data model, document classifier, rule
catalog, the lint engine with its error isolation and report assembly, the
throat-based network concurrency limiters, the report formatters and the
CLI exit-code path), together with theorems settling the specified
properties against that embedding.

External collaborators (cheerio document queries, node-fetch, the url
resolver, JSON.stringify, the JS escape function, the throat library) are
represented either by abstract function parameters bundled in JsEnv or, for
throat, by an explicit FIFO-semaphore state machine; everything else is a
direct translation of the TypeScript source.
-/

namespace Ampbench

/-- Status enum of the linter (PASS, FAIL, WARN, INFO, INTERNAL_ERROR). -/
inductive Status where
  | PASS
  | FAIL
  | WARN
  | INFO
  | INTERNAL_ERROR
deriving DecidableEq

/-- Result value produced by a rule: a status plus an optional message. -/
structure Result where
  status : Status
  message : Option String
deriving DecidableEq

/-- Outcome of one rule: either a single Result or an ordered sequence of
Results (an empty sequence means nothing to report). -/
inductive RuleOutcome where
  | single : Result → RuleOutcome
  | many : List Result → RuleOutcome
deriving DecidableEq

/-- Shallow model of the parsed document handle (CheerioStatic, an external
library object): it records exactly the query results that the embedded
code inspects, namely the number of elements matched by the selector
"body amp-story[standalone]" and the href attribute of the first
"link[rel=canonical]" element (None when the element or the attribute is
absent, mirroring an undefined attr result in JS). -/
structure Doc where
  bodyAmpStoryStandalone : Nat
  linkRelCanonicalHref : Option String
deriving DecidableEq

/-- Context: immutable snapshot of one document fetch, shared by all rules
of a run (url, parsed document handle, raw fetched headers and body, and
the request headers). -/
structure Context where
  url : String
  doc : Doc
  rawHeaders : List (String × String)
  rawBody : String
  headers : List (String × String)
deriving DecidableEq

/-- Document-type enum of the linter. -/
inductive LintType where
  | Amp
  | AmpStory
  | Amp4Ads
  | Amp4Email
  | Sxg
deriving DecidableEq

/-- The document classifier: a document whose body contains exactly one
standalone amp-story element is classified AmpStory, every other document
(including a malformed one, whose selector count is simply not 1) is
classified with the general Amp type. -/
def ampType (d : Doc) : LintType :=
  if d.bodyAmpStoryStandalone = 1 then LintType.AmpStory else LintType.Amp

/-- Identities of the rule classes registered in the catalog. -/
inductive RuleId where
  | SchemaMetadataIsNews
  | LinkRelCanonicalIsOk
  | AmpVideoIsSmall
  | BookendExists
  | AmpVideoIsSpecifiedByAttribute
  | StoryRuntimeIsV1
  | StoryMetadataIsV1
  | MetaCharsetIsFirst
  | RuntimeIsPreloaded
  | StoryIsMostlyText
  | StoryMetadataThumbnailsAreOk
  | AmpImgHeightWidthIsOk
  | AmpImgAmpPixelPreferred
  | EndpointsAreAccessibleFromOrigin
  | EndpointsAreAccessibleFromCache
  | SxgVaryOnAcceptAct
  | SxgContentNegotiationIsOk
  | SxgDumpSignedExchangeVerify
  | SxgAmppkgIsForwarded
deriving DecidableEq

/-- Rule list the catalog installs for the Sxg document type. -/
def sxgRules : List RuleId :=
  [RuleId.SxgAmppkgIsForwarded,
   RuleId.SxgContentNegotiationIsOk,
   RuleId.SxgVaryOnAcceptAct,
   RuleId.SxgDumpSignedExchangeVerify]

/-- Rule list the catalog installs for the general Amp document type. -/
def ampRules : List RuleId :=
  [RuleId.LinkRelCanonicalIsOk,
   RuleId.AmpVideoIsSmall,
   RuleId.AmpVideoIsSpecifiedByAttribute,
   RuleId.MetaCharsetIsFirst,
   RuleId.RuntimeIsPreloaded,
   RuleId.AmpImgHeightWidthIsOk,
   RuleId.AmpImgAmpPixelPreferred,
   RuleId.EndpointsAreAccessibleFromOrigin,
   RuleId.EndpointsAreAccessibleFromCache]

/-- Story-specific rules appended after the Amp list for the AmpStory type. -/
def storyExtraRules : List RuleId :=
  [RuleId.BookendExists,
   RuleId.SchemaMetadataIsNews,
   RuleId.StoryRuntimeIsV1,
   RuleId.StoryMetadataIsV1,
   RuleId.StoryIsMostlyText,
   RuleId.StoryMetadataThumbnailsAreOk]

/-- Rule list for the AmpStory type: the Amp list concatenated with the
story-specific rules, exactly as the source builds the catalog map entry. -/
def ampStoryRules : List RuleId := ampRules ++ storyExtraRules

/-- The catalog map from document type to rule list; Amp4Ads and Amp4Email
have no entry (a map lookup for them yields undefined, modelled none). -/
def testsGet : LintType → Option (List RuleId)
  | LintType.Sxg => some sxgRules
  | LintType.Amp => some ampRules
  | LintType.AmpStory => some ampStoryRules
  | _ => none

/-- Catalog lookup: an explicit override string selects the sxg, amp or
ampstory list; the auto case and every unrecognized string fall through to
the list for the classified type of the document, with an undefined map
entry degrading to the empty list. -/
def testsForType (ty : String) (d : Doc) : List RuleId :=
  if ty = "sxg" then (testsGet LintType.Sxg).getD []
  else if ty = "amp" then (testsGet LintType.Amp).getD []
  else if ty = "ampstory" then (testsGet LintType.AmpStory).getD []
  else (testsGet (ampType d)).getD []

/-- ASCII lowercase of one character, the fragment of the JS toLowerCase
semantics exercised by rule class names. -/
def lowerChar : Char → Char
  | 'A' => 'a'
  | 'B' => 'b'
  | 'C' => 'c'
  | 'D' => 'd'
  | 'E' => 'e'
  | 'F' => 'f'
  | 'G' => 'g'
  | 'H' => 'h'
  | 'I' => 'i'
  | 'J' => 'j'
  | 'K' => 'k'
  | 'L' => 'l'
  | 'M' => 'm'
  | 'N' => 'n'
  | 'O' => 'o'
  | 'P' => 'p'
  | 'Q' => 'q'
  | 'R' => 'r'
  | 'S' => 's'
  | 'T' => 't'
  | 'U' => 'u'
  | 'V' => 'v'
  | 'W' => 'w'
  | 'X' => 'x'
  | 'Y' => 'y'
  | 'Z' => 'z'
  | c => c

/-- Model of the JS toLowerCase call used to case-normalize report keys. -/
def jsToLower (s : String) : String := String.mk (s.data.map lowerChar)

/-- A rule as the engine consumes it: a stable class name and a run
operation over the shared Context. A synchronous throw and a rejected
promise are both modelled by the error branch; by convention the carried
string is the JSON.stringify image of the thrown value (JSON.stringify is
an external builtin; on values it can serialize it never returns the empty
string, an Error object for instance stringifies to a two-character
object literal). -/
structure Rule where
  name : String
  run : Context → Except String RuleOutcome

/-- The report assembled by the engine, modelling the JS object literal as
an association list in key insertion order. -/
abbrev Report := List (String × RuleOutcome)

/-- Await one rule and pair its class name with its outcome, converting a
throw or rejection into a synthesized INTERNAL_ERROR result whose message
is the stringified error, exactly as the try/catch in lint does. -/
def settle (context : Context) (t : Rule) : String × RuleOutcome :=
  match t.run context with
  | Except.ok r => (t.name, r)
  | Except.error e =>
      (t.name, RuleOutcome.single ⟨Status.INTERNAL_ERROR, some e⟩)

/-- JS object assignment a[k] = v on a string-keyed object: replace the
value at an existing key in place, otherwise append the new key. -/
def objInsert : Report → String → RuleOutcome → Report
  | [], k, v => [(k, v)]
  | (k2, v2) :: rest, k, v =>
      if k2 == k then (k2, v) :: rest else (k2, v2) :: objInsert rest k v

/-- The execution engine: run every rule against the shared context,
convert failures per rule, and fold the settled name-outcome pairs into
one report keyed by the lower-cased rule name (the reduce over the
settled array). -/
def lint (tcs : List Rule) (context : Context) : Report :=
  (tcs.map (settle context)).foldl
    (fun a kv => objInsert a (jsToLower kv.1) kv.2) []

/-- String rendering of a status, as the formatters print it. -/
def statusStr : Status → String
  | Status.PASS => "PASS"
  | Status.FAIL => "FAIL"
  | Status.WARN => "WARN"
  | Status.INFO => "INFO"
  | Status.INTERNAL_ERROR => "INTERNAL_ERROR"

/-- Lexicographic strict comparison of two character lists by code point,
the default JS Array.sort string comparison applied to report keys. -/
def lexLtB : List Char → List Char → Bool
  | [], [] => false
  | [], _ :: _ => true
  | _ :: _, [] => false
  | a :: as, b :: bs =>
      if a.toNat < b.toNat then true
      else if b.toNat < a.toNat then false
      else lexLtB as bs

/-- Key order used to sort report keys: s comes no later than t. -/
def strLe (s t : String) : Prop := lexLtB t.data s.data = false

instance : DecidableRel strLe := fun s t =>
  inferInstanceAs (Decidable (lexLtB t.data s.data = false))

/-- Rows a single report entry contributes to the flattened table: one row
per Result of a sequence outcome, a single synthesized PASS row for an
empty sequence, and one row for a single-Result outcome. -/
def rowsFor (k : String) : RuleOutcome → List (List String)
  | RuleOutcome.single r => [[k, statusStr r.status, r.message.getD ""]]
  | RuleOutcome.many [] => [[k, "PASS", ""]]
  | RuleOutcome.many rs =>
      rs.map (fun r => [k, statusStr r.status, r.message.getD ""])

/-- Rows contributed by the report entry at a key: the rows of its looked
up outcome (the lookup always succeeds for a key of the report; the none
branch is the vacuous total completion). -/
def entryRows (data : Report) (k : String) : List (List String) :=
  match data.lookup k with
  | some v => rowsFor k v
  | none => []

/-- Body of the flattened report table: keys sorted, then each entry
expanded to its rows. -/
def flattenBody (data : Report) : List (List String) :=
  (List.insertionSort strLe (data.map Prod.fst)).flatMap (entryRows data)

/-- The flatten helper of the formatter module: a header row followed by
the per-entry rows over the sorted key set. -/
def flatten (data : Report) : List (List String) :=
  ["name", "status", "message"] :: flattenBody data

/-- Abstract hooks for external JS collaborators: the HTML escape builtin,
JSON.stringify on a report, the url resolver, the redirect prober wrapped
by the network gate, the cheerio HTML parser, and the mapping from a rule
class registered in the catalog to its implementation. -/
structure JsEnv where
  escapeStr : String → String
  jsonOut : Report → String
  resolve : String → String → String
  redirect : Context → String → Except Unit String
  parseDoc : String → Doc
  impl : RuleId → Rule

/-- TSV formatter: every flattened row (header included) tab-joined, rows
newline-joined. -/
def tsvOut (data : Report) : String :=
  String.intercalate "\n" ((flatten data).map (String.intercalate "\t"))

/-- HTML formatter: the flattened rows minus the header, each cell escaped
and wrapped in table markup. -/
def htmlOut (env : JsEnv) (data : Report) : String :=
  let res := (flatten data).tail
  let thead := "<tr><th>Name</th><th>Status</th><th>Message</th><tr>"
  let tbody :=
    String.join
      (res.map (fun r =>
        "<tr>" ++
          String.join (r.map (fun td => "<td>" ++ env.escapeStr td ++ "</td>"))
          ++ "</tr>"))
  String.intercalate "\n"
    ["<table class=\"amplint\">", "<thead>", thead, "</thead>", "<tbody>",
     tbody, "</tbody>", "</table>"]

/-- Text formatter: the flattened rows minus the header, one human-readable
block per row, PASS rows without the message line. -/
def textOut (data : Report) : String :=
  String.intercalate "\n"
    (((flatten data).tail).map (fun l =>
      if l.getD 1 "" == "PASS" then
        l.getD 0 "" ++ " (" ++ l.getD 1 "" ++ ")\n"
      else
        l.getD 0 "" ++ " (" ++ l.getD 1 "" ++ ")\n\n  " ++ l.getD 2 "" ++ "\n"))

/-- Formatter dispatch on the requested output type, defaulting to text. -/
def outputterForType (env : JsEnv) (ty : String) (data : Report) : String :=
  if ty = "tsv" then tsvOut data
  else if ty = "html" then htmlOut env data
  else if ty = "json" then env.jsonOut data
  else textOut data

/-- The raw response of the initial document fetch (or of the stdin read). -/
structure RawResponse where
  headers : List (String × String)
  body : String

/-- The easyLint pipeline: given the settled outcome of the document fetch,
parse the body, select the rule set for the forced or classified type, run
the engine and format the report; a failed fetch propagates as the error
branch. -/
def easyLint (env : JsEnv) (fmt force url : String)
    (headers : List (String × String))
    (fetched : Except String RawResponse) : Except String String :=
  match fetched with
  | Except.error e => Except.error e
  | Except.ok r =>
      let d := env.parseDoc r.body
      let tcs := (testsForType force d).map env.impl
      let report := lint tcs ⟨url, d, r.headers, r.body, headers⟩
      Except.ok (outputterForType env fmt report)

/-- Exit code of the CLI: the then-branch prints the formatted report and
leaves the process exit code at zero, the catch-branch prints the error
and sets the exit code to one. -/
def cliExitCode (env : JsEnv) (fmt force url : String)
    (headers : List (String × String))
    (fetched : Except String RawResponse) : Nat :=
  match easyLint env fmt force url headers fetched with
  | Except.ok _ => 0
  | Except.error _ => 1

/-- The concurrency bound both throat wrappers are configured with. -/
def CONCURRENCY : Nat := 8

/-- Modelled from the spec: the throat library (an external dependency,
its source is not part of this repository) provides a FIFO counting
semaphore; a call runs immediately while fewer than limit calls are in
flight and otherwise queues, and queued calls are released oldest first as
permits free up. The state additionally records the full arrival and start
orders so the FIFO property can be stated. -/
structure Gate where
  limit : Nat
  inFlight : Nat
  queue : List Nat
  arrived : List Nat
  started : List Nat
deriving DecidableEq

/-- A fresh throat instance with the given concurrency limit. -/
def Gate.init (n : Nat) : Gate := ⟨n, 0, [], [], []⟩

/-- A caller (identified by a number) invokes the wrapped function and is
appended to the wait queue. -/
def Gate.arrive (g : Gate) (id : Nat) : Gate :=
  ⟨g.limit, g.inFlight, g.queue ++ [id], g.arrived ++ [id], g.started⟩

/-- The oldest queued caller begins its operation, possible only while the
gate is below its limit. -/
def Gate.start (g : Gate) : Option Gate :=
  if g.inFlight < g.limit then
    match g.queue with
    | [] => none
    | id :: q =>
        some ⟨g.limit, g.inFlight + 1, q, g.arrived, g.started ++ [id]⟩
  else none

/-- An in-flight operation completes and its permit is released. -/
def Gate.finish (g : Gate) : Option Gate :=
  match g.inFlight with
  | 0 => none
  | n + 1 => some ⟨g.limit, n, g.queue, g.arrived, g.started⟩

/-- Concurrency state of the url module: the two independent throat
instances the module creates (one wrapping redirectUrl, one wrapping
contentLength) plus a count of in-flight network operations that are not
wrapped by any throat instance (the image-dimension probe and the direct
fetch calls issued inside rules). -/
structure UrlModuleState where
  redirectGate : Gate
  contentGate : Gate
  ungated : Nat
deriving DecidableEq

/-- Initial state: both throat instances fresh at the configured limit, no
ungated call in flight. -/
def UrlModuleState.init : UrlModuleState :=
  ⟨Gate.init CONCURRENCY, Gate.init CONCURRENCY, 0⟩

/-- Events of the concurrency model. -/
inductive NetEvent where
  | redirectArrive : Nat → NetEvent
  | redirectStart : NetEvent
  | redirectFinish : NetEvent
  | contentArrive : Nat → NetEvent
  | contentStart : NetEvent
  | contentFinish : NetEvent
  | ungatedStart : NetEvent
  | ungatedFinish : NetEvent
deriving DecidableEq

/-- One step of the concurrency model; none marks an event that is not
enabled in the given state. -/
def netStep : NetEvent → UrlModuleState → Option UrlModuleState
  | NetEvent.redirectArrive id, s =>
      some ⟨s.redirectGate.arrive id, s.contentGate, s.ungated⟩
  | NetEvent.redirectStart, s =>
      (s.redirectGate.start).map (fun g => ⟨g, s.contentGate, s.ungated⟩)
  | NetEvent.redirectFinish, s =>
      (s.redirectGate.finish).map (fun g => ⟨g, s.contentGate, s.ungated⟩)
  | NetEvent.contentArrive id, s =>
      some ⟨s.redirectGate, s.contentGate.arrive id, s.ungated⟩
  | NetEvent.contentStart, s =>
      (s.contentGate.start).map (fun g => ⟨s.redirectGate, g, s.ungated⟩)
  | NetEvent.contentFinish, s =>
      (s.contentGate.finish).map (fun g => ⟨s.redirectGate, g, s.ungated⟩)
  | NetEvent.ungatedStart, s =>
      some ⟨s.redirectGate, s.contentGate, s.ungated + 1⟩
  | NetEvent.ungatedFinish, s =>
      match s.ungated with
      | 0 => none
      | n + 1 => some ⟨s.redirectGate, s.contentGate, n⟩

/-- Run a sequence of events from a state. -/
def runNet : List NetEvent → UrlModuleState → Option UrlModuleState
  | [], s => some s
  | e :: es, s => (netStep e s).bind (runNet es)

/-- Total number of operations in flight through the two throat gates. -/
def UrlModuleState.gatedInFlight (s : UrlModuleState) : Nat :=
  s.redirectGate.inFlight + s.contentGate.inFlight

end Ampbench

namespace Ampbench

/-- The LinkRelCanonicalIsOk rule: fail when the canonical link is absent
or falsy, fail when the resolved canonical differs from the document url,
otherwise probe the url through the gated redirect helper and compare. -/
def LinkRelCanonicalIsOk (env : JsEnv) (context : Context) : Result :=
  match context.doc.linkRelCanonicalHref with
  | none => ⟨Status.FAIL, some "<link rel=canonical> not specified"⟩
  | some canonical =>
      if canonical = "" then
        ⟨Status.FAIL, some "<link rel=canonical> not specified"⟩
      else
        let s1 := env.resolve context.url canonical
        if context.url ≠ s1 then
          ⟨Status.FAIL,
           some ("actual: " ++ s1 ++ ", expected: " ++ context.url)⟩
        else
          match env.redirect context context.url with
          | Except.ok s2 =>
              if s2 = context.url then ⟨Status.PASS, none⟩
              else
                ⟨Status.FAIL,
                 some ("actual: " ++ s2 ++ ", expected: " ++ context.url)⟩
          | Except.error _ =>
              ⟨Status.FAIL,
               some ("couldn't retrieve canonical " ++ context.url)⟩

/-- A document with no story markers and no canonical link. -/
def trivialDoc : Doc := ⟨0, none⟩

/-- A minimal concrete Context for concrete evaluations. -/
def trivialContext : Context := ⟨"", trivialDoc, [], "", []⟩

/-- A plain passing outcome. -/
def passOutcome : RuleOutcome := RuleOutcome.single ⟨Status.PASS, none⟩

/-- A passing rule whose class name starts with an uppercase letter. -/
def ruleFooUpper : Rule := ⟨"Foo", fun _ => Except.ok passOutcome⟩

/-- A passing rule whose class name is the lower-cased form of Foo. -/
def ruleFooLower : Rule := ⟨"foo", fun _ => Except.ok passOutcome⟩

/-- A rule that throws. -/
def ruleBad : Rule := ⟨"Bad", fun _ => Except.error "boom"⟩

/-- A rule that passes. -/
def ruleGood : Rule := ⟨"Good", fun _ => Except.ok passOutcome⟩

/-- A throwing rule named r. -/
def ruleRethrow : Rule := ⟨"r", fun _ => Except.error "boom"⟩

/-- A passing rule also named r. -/
def ruleRpass : Rule := ⟨"r", fun _ => Except.ok passOutcome⟩

/-- A concrete environment instance for witnesses. -/
def idJsEnv : JsEnv :=
  ⟨fun s => s, fun _ => "", fun _ s => s, fun _ _ => Except.error (),
   fun _ => trivialDoc, fun _ => ruleGood⟩

/-- An event schedule that fills the redirect gate to its limit of eight
in-flight operations and then starts a ninth operation through the
separate content-length gate. -/
def nineGatedEvents : List NetEvent :=
  [NetEvent.redirectArrive 0, NetEvent.redirectStart,
   NetEvent.redirectArrive 1, NetEvent.redirectStart,
   NetEvent.redirectArrive 2, NetEvent.redirectStart,
   NetEvent.redirectArrive 3, NetEvent.redirectStart,
   NetEvent.redirectArrive 4, NetEvent.redirectStart,
   NetEvent.redirectArrive 5, NetEvent.redirectStart,
   NetEvent.redirectArrive 6, NetEvent.redirectStart,
   NetEvent.redirectArrive 7, NetEvent.redirectStart,
   NetEvent.contentArrive 8, NetEvent.contentStart]

/-- Invariant of one throat instance: the configured limit, the bound on
in-flight operations, and the FIFO decomposition of the arrival order into
started callers followed by the wait queue. -/
def GateInv (g : Gate) : Prop :=
  g.limit = CONCURRENCY ∧ g.inFlight ≤ CONCURRENCY
    ∧ g.arrived = g.started ++ g.queue

/-- Invariant of the whole url module state. -/
def NetInv (s : UrlModuleState) : Prop :=
  GateInv s.redirectGate ∧ GateInv s.contentGate

/-- The state reached after one caller arrives at the redirect gate and
starts. -/
def witState : UrlModuleState :=
  ⟨⟨8, 1, [], [0], [0]⟩, ⟨8, 0, [], [], []⟩, 0⟩

/-- A two-entry report in one settlement order. -/
def demoReportA : Report :=
  [("b", RuleOutcome.single ⟨Status.FAIL, some "m"⟩),
   ("a", RuleOutcome.many [])]

/-- The same report mapping in the other settlement order. -/
def demoReportB : Report :=
  [("a", RuleOutcome.many []),
   ("b", RuleOutcome.single ⟨Status.FAIL, some "m"⟩)]

/-- Characters with equal code points are equal. -/
theorem charToNat_inj {a b : Char} (h : a.toNat = b.toNat) : a = b := by
  have ha := Char.ofNat_toNat a
  rw [h, Char.ofNat_toNat] at ha
  exact ha.symm

/-- The lexicographic comparison is irreflexive. -/
theorem lexLtB_irrefl : ∀ as : List Char, lexLtB as as = false := by
  intro as
  induction as with
  | nil => rfl
  | cons a as ih => simp [lexLtB, ih]

/-- The lexicographic comparison is asymmetric. -/
theorem lexLtB_asymm :
    ∀ as bs : List Char, lexLtB as bs = true → lexLtB bs as = false := by
  intro as
  induction as with
  | nil =>
    intro bs h
    cases bs with
    | nil => simp [lexLtB] at h
    | cons b bs => simp [lexLtB]
  | cons a as ih =>
    intro bs h
    cases bs with
    | nil => simp [lexLtB] at h
    | cons b bs =>
      by_cases h1 : a.toNat < b.toNat
      · have h2 : ¬ b.toNat < a.toNat := Nat.lt_asymm h1
        simp [lexLtB, h1, h2]
      · by_cases h2 : b.toNat < a.toNat
        · simp [lexLtB, h1, h2] at h
        · simp [lexLtB, h1, h2] at h ⊢
          exact ih bs h

/-- The lexicographic comparison is transitive. -/
theorem lexLtB_trans :
    ∀ as bs cs : List Char,
      lexLtB as bs = true → lexLtB bs cs = true → lexLtB as cs = true := by
  intro as
  induction as with
  | nil =>
    intro bs cs h1 h2
    cases bs with
    | nil => simp [lexLtB] at h1
    | cons b bs =>
      cases cs with
      | nil => simp [lexLtB] at h2
      | cons c cs => simp [lexLtB]
  | cons a as ih =>
    intro bs cs h1 h2
    cases bs with
    | nil => simp [lexLtB] at h1
    | cons b bs =>
      cases cs with
      | nil => simp [lexLtB] at h2
      | cons c cs =>
        by_cases hab : a.toNat < b.toNat
        · by_cases hbc : b.toNat < c.toNat
          · have : a.toNat < c.toNat := Nat.lt_trans hab hbc
            simp [lexLtB, this]
          · by_cases hcb : c.toNat < b.toNat
            · simp [lexLtB, hbc, hcb] at h2
            · have hbceq : b.toNat = c.toNat := Nat.le_antisymm
                (Nat.le_of_not_lt hcb) (Nat.le_of_not_lt hbc)
              have : a.toNat < c.toNat := hbceq ▸ hab
              simp [lexLtB, this]
        · by_cases hba : b.toNat < a.toNat
          · simp [lexLtB, hab, hba] at h1
          · have habeq : a.toNat = b.toNat := Nat.le_antisymm
              (Nat.le_of_not_lt hba) (Nat.le_of_not_lt hab)
            simp [lexLtB, hab, hba] at h1
            by_cases hbc : b.toNat < c.toNat
            · have : a.toNat < c.toNat := habeq ▸ hbc
              simp [lexLtB, this]
            · by_cases hcb : c.toNat < b.toNat
              · simp [lexLtB, hbc, hcb] at h2
              · simp [lexLtB, hbc, hcb] at h2
                have hac : ¬ a.toNat < c.toNat := by omega
                have hca : ¬ c.toNat < a.toNat := by omega
                simp [lexLtB, hac, hca]
                exact ih bs cs h1 h2

/-- Two lists neither of which lexicographically precedes the other are
equal. -/
theorem lexLtB_conn :
    ∀ as bs : List Char,
      lexLtB as bs = false → lexLtB bs as = false → as = bs := by
  intro as
  induction as with
  | nil =>
    intro bs h1 h2
    cases bs with
    | nil => rfl
    | cons b bs => simp [lexLtB] at h1
  | cons a as ih =>
    intro bs h1 h2
    cases bs with
    | nil => simp [lexLtB] at h2
    | cons b bs =>
      by_cases hab : a.toNat < b.toNat
      · simp [lexLtB, hab] at h1
      · by_cases hba : b.toNat < a.toNat
        · simp [lexLtB, hba] at h2
        · have habeq : a = b := charToNat_inj (by omega)
          simp [lexLtB, hab, hba] at h1 h2
          rw [habeq, ih bs h1 h2]

instance : IsTotal String strLe := by
  constructor
  intro s t
  by_cases h : lexLtB t.data s.data = true
  · exact Or.inr (lexLtB_asymm t.data s.data h)
  · exact Or.inl (Bool.eq_false_iff.mpr h)

instance : IsTrans String strLe := by
  constructor
  intro a b c h1 h2
  by_cases hca : lexLtB c.data a.data = true
  · exfalso
    by_cases hcb : lexLtB c.data b.data = true
    · rw [strLe] at h2
      rw [h2] at hcb
      exact Bool.false_ne_true hcb
    · by_cases hbc : lexLtB b.data c.data = true
      · have : lexLtB b.data a.data = true := lexLtB_trans _ _ _ hbc hca
        rw [strLe] at h1
        rw [h1] at this
        exact Bool.false_ne_true this
      · have hbceq : b.data = c.data := lexLtB_conn _ _
          (Bool.eq_false_iff.mpr hbc) (Bool.eq_false_iff.mpr hcb)
        have : lexLtB b.data a.data = true := hbceq ▸ hca
        rw [strLe] at h1
        rw [h1] at this
        exact Bool.false_ne_true this
  · exact Bool.eq_false_iff.mpr hca

instance : IsAntisymm String strLe := by
  constructor
  intro a b h1 h2
  have h : a.data = b.data := lexLtB_conn a.data b.data h2 h1
  cases a
  cases b
  exact congrArg String.mk h

/-- Key order is reflexive. -/
theorem strLe_refl (s : String) : strLe s s := lexLtB_irrefl s.data

end Ampbench

namespace Ampbench

/-- Settling a rule keeps its class name as the key component. -/
theorem settle_fst (ctx : Context) (t : Rule) : (settle ctx t).1 = t.name := by
  cases h : t.run ctx <;> simp [settle, h]

/-- A rule whose run fails settles to the synthesized INTERNAL_ERROR
result carrying the stringified error. -/
theorem settle_of_error (ctx : Context) (t : Rule) (e : String)
    (h : t.run ctx = Except.error e) :
    settle ctx t =
      (t.name, RuleOutcome.single ⟨Status.INTERNAL_ERROR, some e⟩) := by
  simp [settle, h]

/-- Assigning a fresh key appends the pair at the end of the object. -/
theorem objInsert_of_notMem (acc : Report) (k : String) (v : RuleOutcome)
    (h : k ∉ acc.map Prod.fst) : objInsert acc k v = acc ++ [(k, v)] := by
  induction acc with
  | nil => rfl
  | cons kv rest ih =>
    obtain ⟨k2, v2⟩ := kv
    simp only [List.map_cons, List.mem_cons] at h
    push_neg at h
    have hne : (k2 == k) = false := by
      simp only [beq_eq_false_iff_ne]
      exact fun he => h.1 he.symm
    simp [objInsert, hne, ih h.2]

/-- Folding the settled pairs into the object, when the lower-cased keys
are fresh for the accumulator and mutually distinct, appends every pair in
order. -/
theorem foldl_objInsert (kvs : List (String × RuleOutcome)) :
    ∀ acc : Report,
      (∀ kv ∈ kvs, jsToLower kv.1 ∉ acc.map Prod.fst) →
      (kvs.map (fun kv => jsToLower kv.1)).Nodup →
      kvs.foldl (fun a kv => objInsert a (jsToLower kv.1) kv.2) acc
        = acc ++ kvs.map (fun kv => (jsToLower kv.1, kv.2)) := by
  induction kvs with
  | nil => intro acc _ _; simp
  | cons kv kvs ih =>
    intro acc hfresh hnd
    obtain ⟨hhead, htail⟩ := by
      simpa only [List.map_cons, List.nodup_cons] using hnd
    have hfresh0 : jsToLower kv.1 ∉ acc.map Prod.fst :=
      hfresh kv (List.mem_cons_self kv kvs)
    have hstep : objInsert acc (jsToLower kv.1) kv.2
        = acc ++ [(jsToLower kv.1, kv.2)] :=
      objInsert_of_notMem acc _ _ hfresh0
    have hfresh2 : ∀ kv2 ∈ kvs,
        jsToLower kv2.1 ∉ (acc ++ [(jsToLower kv.1, kv.2)]).map Prod.fst := by
      intro kv2 hm
      simp only [List.map_append, List.mem_append, List.map_cons,
        List.map_nil, List.mem_singleton]
      push_neg
      refine ⟨hfresh kv2 (List.mem_cons_of_mem kv hm), ?_⟩
      intro he
      exact hhead (he ▸ List.mem_map_of_mem (fun x => jsToLower x.1) hm)
    calc (kv :: kvs).foldl (fun a x => objInsert a (jsToLower x.1) x.2) acc
        = kvs.foldl (fun a x => objInsert a (jsToLower x.1) x.2)
            (objInsert acc (jsToLower kv.1) kv.2) := by rfl
      _ = (acc ++ [(jsToLower kv.1, kv.2)])
            ++ kvs.map (fun x => (jsToLower x.1, x.2)) := by
            rw [hstep, ih _ hfresh2 htail]
      _ = acc ++ (kv :: kvs).map (fun x => (jsToLower x.1, x.2)) := by
            simp

/-- When the lower-cased rule names are mutually distinct, the report is
exactly the settled outcomes keyed by lower-cased name, in rule order. -/
theorem lint_eq (tcs : List Rule) (ctx : Context)
    (hnd : (tcs.map (fun t => jsToLower t.name)).Nodup) :
    lint tcs ctx
      = tcs.map (fun t => (jsToLower t.name, (settle ctx t).2)) := by
  have hkeys : (tcs.map (settle ctx)).map (fun kv => jsToLower kv.1)
      = tcs.map (fun t => jsToLower t.name) := by
    rw [List.map_map]
    exact List.map_congr_left (fun t _ => by rw [Function.comp_apply, settle_fst])
  have := foldl_objInsert (tcs.map (settle ctx)) []
    (by intro kv _; simp) (by rw [hkeys]; exact hnd)
  rw [lint, this, List.nil_append, List.map_map]
  refine List.map_congr_left (fun t _ => ?_)
  rw [Function.comp_apply, settle_fst]

/-- Looking up a key present in an association list with distinct keys
returns the associated value. -/
theorem lookup_of_mem_nodup {β : Type} (l : List (String × β)) (k : String)
    (v : β) (hm : (k, v) ∈ l) (hnd : (l.map Prod.fst).Nodup) :
    l.lookup k = some v := by
  induction l with
  | nil => simp at hm
  | cons kv rest ih =>
    obtain ⟨k2, v2⟩ := kv
    simp only [List.map_cons, List.nodup_cons] at hnd
    rcases List.mem_cons.mp hm with he | hm2
    · obtain ⟨hk, hv⟩ := Prod.mk.injEq .. ▸ he
      subst hk
      subst hv
      simp [List.lookup]
    · have hne : k ≠ k2 := by
        intro he
        subst he
        exact hnd.1 (List.mem_map_of_mem Prod.fst hm2)
      have : (k == k2) = false := beq_eq_false_iff_ne.mpr hne
      simp [List.lookup, this, ih hm2 hnd.2]

end Ampbench

namespace Ampbench

/-- Arrival preserves the gate invariant. -/
theorem gateInv_arrive (g : Gate) (id : Nat) (h : GateInv g) :
    GateInv (g.arrive id) := by
  obtain ⟨h1, h2, h3⟩ := h
  refine ⟨h1, h2, ?_⟩
  simp [Gate.arrive, h3]

/-- Starting a queued caller preserves the gate invariant. -/
theorem gateInv_start (g g2 : Gate) (hs : g.start = some g2)
    (h : GateInv g) : GateInv g2 := by
  obtain ⟨h1, h2, h3⟩ := h
  rw [Gate.start] at hs
  by_cases hlt : g.inFlight < g.limit
  · rw [if_pos hlt] at hs
    cases hq : g.queue with
    | nil => rw [hq] at hs; simp at hs
    | cons id q =>
      rw [hq] at hs
      simp only [Option.some.injEq] at hs
      subst hs
      refine ⟨h1, ?_, ?_⟩
      · have hcap : g.inFlight < CONCURRENCY := h1 ▸ hlt
        show g.inFlight + 1 ≤ CONCURRENCY
        omega
      · simp only
        rw [h3, hq, List.append_assoc]
        rfl
  · rw [if_neg hlt] at hs
    simp at hs

/-- Completing an operation preserves the gate invariant. -/
theorem gateInv_finish (g g2 : Gate) (hs : g.finish = some g2)
    (h : GateInv g) : GateInv g2 := by
  obtain ⟨h1, h2, h3⟩ := h
  rw [Gate.finish] at hs
  cases hf : g.inFlight with
  | zero => rw [hf] at hs; simp at hs
  | succ n =>
    rw [hf] at hs
    simp only [Option.some.injEq] at hs
    subst hs
    refine ⟨h1, ?_, h3⟩
    show n ≤ CONCURRENCY
    omega

/-- Every enabled event of the url module preserves the invariant. -/
theorem netStep_inv (e : NetEvent) (s s2 : UrlModuleState)
    (hs : netStep e s = some s2) (h : NetInv s) : NetInv s2 := by
  obtain ⟨hr, hc⟩ := h
  cases e with
  | redirectArrive id =>
    simp only [netStep, Option.some.injEq] at hs
    subst hs
    exact ⟨gateInv_arrive _ id hr, hc⟩
  | redirectStart =>
    simp only [netStep] at hs
    cases hg : s.redirectGate.start with
    | none => rw [hg] at hs; simp at hs
    | some g =>
      rw [hg] at hs
      simp at hs
      subst hs
      exact ⟨gateInv_start _ g hg hr, hc⟩
  | redirectFinish =>
    simp only [netStep] at hs
    cases hg : s.redirectGate.finish with
    | none => rw [hg] at hs; simp at hs
    | some g =>
      rw [hg] at hs
      simp at hs
      subst hs
      exact ⟨gateInv_finish _ g hg hr, hc⟩
  | contentArrive id =>
    simp only [netStep, Option.some.injEq] at hs
    subst hs
    exact ⟨hr, gateInv_arrive _ id hc⟩
  | contentStart =>
    simp only [netStep] at hs
    cases hg : s.contentGate.start with
    | none => rw [hg] at hs; simp at hs
    | some g =>
      rw [hg] at hs
      simp at hs
      subst hs
      exact ⟨hr, gateInv_start _ g hg hc⟩
  | contentFinish =>
    simp only [netStep] at hs
    cases hg : s.contentGate.finish with
    | none => rw [hg] at hs; simp at hs
    | some g =>
      rw [hg] at hs
      simp at hs
      subst hs
      exact ⟨hr, gateInv_finish _ g hg hc⟩
  | ungatedStart =>
    simp only [netStep, Option.some.injEq] at hs
    subst hs
    exact ⟨hr, hc⟩
  | ungatedFinish =>
    simp only [netStep] at hs
    cases hu : s.ungated with
    | zero => rw [hu] at hs; simp at hs
    | succ n =>
      rw [hu] at hs
      simp only [Option.some.injEq] at hs
      subst hs
      exact ⟨hr, hc⟩

/-- Running any event schedule preserves the invariant. -/
theorem runNet_inv (evs : List NetEvent) :
    ∀ s s2 : UrlModuleState,
      runNet evs s = some s2 → NetInv s → NetInv s2 := by
  induction evs with
  | nil =>
    intro s s2 h hinv
    simp only [runNet, Option.some.injEq] at h
    subst h
    exact hinv
  | cons e es ih =>
    intro s s2 h hinv
    simp only [runNet] at h
    cases h1 : netStep e s with
    | none => rw [h1] at h; simp at h
    | some s1 =>
      rw [h1] at h
      simp at h
      exact ih s1 s2 h (netStep_inv e s s1 h1 hinv)

end Ampbench

namespace Ampbench

/-- A nonempty string has positive length. -/
theorem length_pos_of_ne_empty (s : String) (h : s ≠ "") : 0 < s.length := by
  cases s with
  | mk data =>
    cases data with
    | nil => simp at h
    | cons c cs => simp [String.length]

/-- C1 counterexample: in a rule set where a throwing rule and a passing
rule share the class name r, the throwing rule settles first and its
synthesized INTERNAL_ERROR entry is silently overwritten by the passing
rule, so the throwing rule's Report entry is not the synthesized value;
the claim as stated fails for this rule set. -/
theorem lint_throwing_rule_entry_overwritten :
    lint [ruleRethrow, ruleRpass] trivialContext
      = [("r", RuleOutcome.single ⟨Status.PASS, none⟩)] := by decide

/-- C1 (amended): when the lower-cased rule names are mutually distinct,
a rule whose run throws or rejects gets exactly the synthesized entry with
status INTERNAL_ERROR and the stringified error as its message (nonempty
whenever the stringified error is nonempty, which JSON.stringify
guarantees for every value it can serialize), lint still resolves, and
every rule's entry equals the entry that rule produces when it is linted
on its own. -/
theorem lint_internal_error_isolation (tcs : List Rule) (ctx : Context)
    (t u : Rule) (e : String)
    (hnd : (tcs.map (fun r => jsToLower r.name)).Nodup)
    (ht : t ∈ tcs) (he : t.run ctx = Except.error e) (hne : e ≠ "")
    (hu : u ∈ tcs) :
    (lint tcs ctx).lookup (jsToLower t.name)
        = some (RuleOutcome.single ⟨Status.INTERNAL_ERROR, some e⟩)
      ∧ 0 < e.length
      ∧ (lint tcs ctx).lookup (jsToLower u.name)
          = (lint [u] ctx).lookup (jsToLower u.name) := by
  have hrep := lint_eq tcs ctx hnd
  have hkeys : (tcs.map (fun r => (jsToLower r.name, (settle ctx r).2))).map
      Prod.fst = tcs.map (fun r => jsToLower r.name) := by
    rw [List.map_map]; rfl
  have hlook : ∀ v ∈ tcs, (lint tcs ctx).lookup (jsToLower v.name)
      = some ((settle ctx v).2) := by
    intro v hv
    rw [hrep]
    exact lookup_of_mem_nodup _ _ _
      (List.mem_map_of_mem (fun r => (jsToLower r.name, (settle ctx r).2)) hv)
      (hkeys ▸ hnd)
  refine ⟨?_, length_pos_of_ne_empty e hne, ?_⟩
  · rw [hlook t ht, settle_of_error ctx t e he]
  · have hsingle : (lint [u] ctx).lookup (jsToLower u.name)
        = some ((settle ctx u).2) := by
      have hnd1 : ([u].map (fun r => jsToLower r.name)).Nodup := by simp
      rw [lint_eq [u] ctx hnd1]
      simp [List.lookup]
    rw [hlook u hu, hsingle]

/-- Witness for the amended C1 theorem at a concrete two-rule set. -/
theorem lint_internal_error_isolation_witness :
    (lint [ruleBad, ruleGood] trivialContext).lookup (jsToLower "Bad")
        = some (RuleOutcome.single ⟨Status.INTERNAL_ERROR, some "boom"⟩)
      ∧ 0 < "boom".length
      ∧ (lint [ruleBad, ruleGood] trivialContext).lookup (jsToLower "Good")
          = (lint [ruleGood] trivialContext).lookup (jsToLower "Good") :=
  lint_internal_error_isolation [ruleBad, ruleGood] trivialContext
    ruleBad ruleGood "boom" (by decide) (List.mem_cons_self _ _) rfl
    (by decide) (List.mem_cons_of_mem _ (List.mem_cons_self _ _))

/-- C2 counterexample: the rule names Foo and foo are distinct, yet lint
produces a single-entry report because both case-normalize to the same
key, so a rule set with distinct names need not yield one entry per
rule. -/
theorem lint_case_colliding_names_lose_entry :
    ruleFooUpper.name ≠ ruleFooLower.name
      ∧ (lint [ruleFooUpper, ruleFooLower] trivialContext).length = 1 := by
  decide

/-- C2 (amended): when the lower-cased rule names are mutually distinct,
lint resolves to a report whose keys are exactly the lower-cased rule
names in rule order, hence with exactly one entry per rule, and the empty
rule set yields the empty report. -/
theorem lint_report_keys (tcs : List Rule) (ctx : Context)
    (hnd : (tcs.map (fun t => jsToLower t.name)).Nodup) :
    (lint tcs ctx).map Prod.fst = tcs.map (fun t => jsToLower t.name)
      ∧ (lint tcs ctx).length = tcs.length
      ∧ lint [] ctx = [] := by
  have hrep := lint_eq tcs ctx hnd
  refine ⟨?_, ?_, rfl⟩
  · rw [hrep, List.map_map]; rfl
  · rw [hrep, List.length_map]

/-- Witness for the amended C2 theorem at a concrete two-rule set. -/
theorem lint_report_keys_witness :
    (lint [ruleBad, ruleGood] trivialContext).map Prod.fst
        = [ruleBad, ruleGood].map (fun t => jsToLower t.name)
      ∧ (lint [ruleBad, ruleGood] trivialContext).length
          = [ruleBad, ruleGood].length
      ∧ lint [] trivialContext = [] :=
  lint_report_keys [ruleBad, ruleGood] trivialContext (by decide)

/-- C3 counterexample: the url module has two separate throat instances,
each configured with limit eight; a schedule that fills the redirect gate
and then starts one call through the content-length gate reaches a state
with nine gated operations in flight, so no single process-wide limit of
eight bounds the union of all gated network calls. -/
theorem gates_reach_nine_in_flight :
    (runNet nineGatedEvents UrlModuleState.init).map
        UrlModuleState.gatedInFlight = some 9
      ∧ CONCURRENCY = 8 := by decide

/-- C3 (amended): each of the two throat instances independently never
exceeds eight in-flight operations, and each releases its queued callers
in FIFO order (at every reachable state the arrival order of a gate is
its start order followed by its wait queue); the two limits are separate,
and calls outside the two wrappers are not limited at all. -/
theorem gate_bound_and_fifo (evs : List NetEvent) (s : UrlModuleState)
    (h : runNet evs UrlModuleState.init = some s) :
    s.redirectGate.inFlight ≤ CONCURRENCY
      ∧ s.contentGate.inFlight ≤ CONCURRENCY
      ∧ s.redirectGate.arrived
          = s.redirectGate.started ++ s.redirectGate.queue
      ∧ s.contentGate.arrived
          = s.contentGate.started ++ s.contentGate.queue := by
  have hinit : NetInv UrlModuleState.init :=
    ⟨⟨rfl, Nat.zero_le _, rfl⟩, ⟨rfl, Nat.zero_le _, rfl⟩⟩
  obtain ⟨⟨_, hr2, hr3⟩, _, hc2, hc3⟩ :=
    runNet_inv evs UrlModuleState.init s h hinit
  exact ⟨hr2, hc2, hr3, hc3⟩

/-- Witness for the amended C3 theorem at a concrete reachable state. -/
theorem gate_bound_and_fifo_witness :
    witState.redirectGate.inFlight ≤ CONCURRENCY
      ∧ witState.contentGate.inFlight ≤ CONCURRENCY
      ∧ witState.redirectGate.arrived
          = witState.redirectGate.started ++ witState.redirectGate.queue
      ∧ witState.contentGate.arrived
          = witState.contentGate.started ++ witState.contentGate.queue :=
  gate_bound_and_fifo [NetEvent.redirectArrive 0, NetEvent.redirectStart]
    witState rfl

/-- C4 counterexample: the sxg document type is a specialized type whose
catalog list omits members of the base Amp list, so not every specialized
type runs at least the base checks. -/
theorem sxg_rules_not_superset_of_amp :
    RuleId.LinkRelCanonicalIsOk ∈ testsForType "amp" trivialDoc
      ∧ RuleId.LinkRelCanonicalIsOk ∉ testsForType "sxg" trivialDoc := by
  decide

/-- C4 (amended): the story specialization extends the base list
append-only (the ampstory list is the amp list, order preserved, followed
by the story rules), every base rule is a story rule but not conversely,
and a document classified as a story selects the story list while a
general document selects the base list; the sxg list is a separate table
entry with no superset relation to the base. -/
theorem ampstory_extends_amp :
    (∀ d : Doc, testsForType "ampstory" d
        = testsForType "amp" d ++ storyExtraRules)
      ∧ (∀ r ∈ ampRules, r ∈ ampStoryRules)
      ∧ (∃ r, r ∈ ampStoryRules ∧ r ∉ ampRules)
      ∧ testsForType "auto" ⟨1, none⟩ = ampStoryRules
      ∧ testsForType "auto" ⟨0, none⟩ = ampRules := by
  refine ⟨fun d => rfl, by decide,
    ⟨RuleId.BookendExists, by decide, by decide⟩, rfl, rfl⟩

/-- Witness for the amended C4 theorem: a base rule runs for stories. -/
theorem ampstory_extends_amp_witness :
    RuleId.LinkRelCanonicalIsOk ∈ ampStoryRules :=
  ampstory_extends_amp.2.1 RuleId.LinkRelCanonicalIsOk (by decide)

/-- C5 counterexample: the unrecognized override string bogus does not
yield the empty list; it falls through to auto-classification and selects
the nonempty Amp list for a general document. -/
theorem unknown_type_override_not_empty :
    testsForType "bogus" trivialDoc = ampRules ∧ ampRules ≠ [] := by decide

/-- C5 (amended): for every override string other than sxg, amp and
ampstory the catalog lookup behaves exactly like the auto case, returning
the list for the classified document type (the getD fallback returns the
empty list only when the classified type has no catalog entry, which the
classifier never produces). -/
theorem unknown_type_override_falls_back_to_auto (ty : String) (d : Doc)
    (h1 : ty ≠ "sxg") (h2 : ty ≠ "amp") (h3 : ty ≠ "ampstory") :
    testsForType ty d = testsForType "auto" d := by
  have hauto : testsForType "auto" d = (testsGet (ampType d)).getD [] := rfl
  rw [hauto]
  unfold testsForType
  rw [if_neg h1, if_neg h2, if_neg h3]

/-- Witness for the amended C5 theorem at a concrete override string. -/
theorem unknown_type_override_falls_back_to_auto_witness :
    testsForType "bogus" trivialDoc = testsForType "auto" trivialDoc :=
  unknown_type_override_falls_back_to_auto "bogus" trivialDoc
    (by decide) (by decide) (by decide)

/-- C6: the classifier is a total pure function into the document types:
every document (the selector count of a malformed document simply fails
to be one) maps to exactly one of the general type and the story type,
and a document with no story marker maps to the general type. -/
theorem ampType_total_and_defaults (d : Doc) :
    (ampType d = LintType.Amp ∨ ampType d = LintType.AmpStory)
      ∧ (d.bodyAmpStoryStandalone = 0 → ampType d = LintType.Amp) := by
  constructor
  · by_cases h : d.bodyAmpStoryStandalone = 1
    · refine Or.inr ?_
      unfold ampType
      rw [if_pos h]
    · refine Or.inl ?_
      unfold ampType
      rw [if_neg h]
  · intro h0
    unfold ampType
    rw [h0, if_neg (by decide)]

/-- Witness for the C6 theorem at the empty document. -/
theorem ampType_total_and_defaults_witness :
    (ampType ⟨0, none⟩ = LintType.Amp
        ∨ ampType ⟨0, none⟩ = LintType.AmpStory)
      ∧ ampType ⟨0, none⟩ = LintType.Amp :=
  ⟨(ampType_total_and_defaults ⟨0, none⟩).1,
   (ampType_total_and_defaults ⟨0, none⟩).2 rfl⟩

/-- C7: when the document has no canonical link (no element, or an
element without an href, both of which leave the attr undefined), the
LinkRelCanonicalIsOk rule fails immediately with the fixed message,
whatever the url resolver and the network return. -/
theorem link_rel_canonical_missing_fails (env : JsEnv) (context : Context)
    (h : context.doc.linkRelCanonicalHref = none) :
    LinkRelCanonicalIsOk env context
      = ⟨Status.FAIL, some "<link rel=canonical> not specified"⟩ := by
  unfold LinkRelCanonicalIsOk
  rw [h]

/-- Witness for the C7 theorem at a concrete context and environment. -/
theorem link_rel_canonical_missing_fails_witness :
    LinkRelCanonicalIsOk idJsEnv trivialContext
      = ⟨Status.FAIL, some "<link rel=canonical> not specified"⟩ :=
  link_rel_canonical_missing_fails idJsEnv trivialContext rfl

/-- C9: the CLI exit code is zero exactly when the pipeline after a
successful fetch completes (whatever the rules and formatters produce,
over every environment), and one when the document could not be fetched
or parsed, in which case the rejection reaches the catch that sets the
exit code. -/
theorem cli_exit_codes (env : JsEnv) (fmt force url : String)
    (headers : List (String × String)) (r : RawResponse) (e : String) :
    cliExitCode env fmt force url headers (Except.ok r) = 0
      ∧ cliExitCode env fmt force url headers (Except.error e) = 1 :=
  ⟨rfl, rfl⟩

end Ampbench

namespace Ampbench

/-- Every row an outcome contributes carries the key as its name cell. -/
theorem rowsFor_name (k : String) (v : RuleOutcome) :
    ∀ row ∈ rowsFor k v, row.headD "" = k := by
  intro row hrow
  cases v with
  | single r =>
    simp only [rowsFor, List.mem_singleton] at hrow
    subst hrow
    rfl
  | many rs =>
    cases rs with
    | nil =>
      simp only [rowsFor, List.mem_singleton] at hrow
      subst hrow
      rfl
    | cons r rs =>
      simp only [rowsFor, List.mem_map] at hrow
      obtain ⟨r2, _, he⟩ := hrow
      subst he
      rfl

/-- Every row an entry contributes carries the key as its name cell. -/
theorem entryRows_name (data : Report) (k : String) :
    ∀ row ∈ entryRows data k, row.headD "" = k := by
  intro row hrow
  rw [entryRows] at hrow
  cases hl : data.lookup k with
  | none => rw [hl] at hrow; simp at hrow
  | some v =>
    rw [hl] at hrow
    exact rowsFor_name k v row hrow

/-- A list all of whose elements equal a fixed string is sorted. -/
theorem sorted_of_all_eq (l : List String) (c : String)
    (h : ∀ x ∈ l, x = c) : List.Sorted strLe l := by
  induction l with
  | nil => exact List.sorted_nil
  | cons a l ih =>
    refine List.sorted_cons.mpr ⟨?_, ih (fun x hx => h x (List.mem_cons_of_mem a hx))⟩
    intro b hb
    rw [h a (List.mem_cons_self a l), h b (List.mem_cons_of_mem a hb)]
    exact strLe_refl c

/-- Expanding a sorted key list block-wise, with every block repeating its
key as the name cell, yields a name column sorted in the same order. -/
theorem sorted_flatMap_names (ks : List String)
    (g : String → List (List String)) (hks : List.Sorted strLe ks)
    (hg : ∀ k row, row ∈ g k → row.headD "" = k) :
    List.Sorted strLe ((ks.flatMap g).map (fun row => row.headD "")) := by
  induction ks with
  | nil => simp
  | cons k ks ih =>
    rw [List.flatMap_cons, List.map_append]
    obtain ⟨hhead, htail⟩ := List.sorted_cons.mp hks
    refine List.pairwise_append.mpr ⟨?_, ih htail, ?_⟩
    · exact sorted_of_all_eq _ k (by
        intro x hx
        obtain ⟨row, hrow, he⟩ := List.mem_map.mp hx
        exact he ▸ hg k row hrow)
    · intro x hx y hy
      obtain ⟨row, hrow, hex⟩ := List.mem_map.mp hx
      obtain ⟨row2, hrow2, hey⟩ := List.mem_map.mp hy
      obtain ⟨k2, hk2, hrow2m⟩ := List.mem_flatMap.mp hrow2
      have hxk : x = k := hex ▸ hg k row hrow
      have hyk : y = k2 := hey ▸ hg k2 row2 hrow2m
      rw [hxk, hyk]
      exact hhead k2 hk2

/-- Lookup is invariant under permutation of an association list with
distinct keys. -/
theorem lookup_perm_nodup {β : Type} {l1 l2 : List (String × β)}
    (h : l1.Perm l2) :
    (l1.map Prod.fst).Nodup → ∀ k, l1.lookup k = l2.lookup k := by
  induction h with
  | nil => intro _ k; rfl
  | cons x h ih =>
    intro hnd k
    obtain ⟨x1, x2⟩ := x
    simp only [List.map_cons, List.nodup_cons] at hnd
    cases hbe : (k == x1) <;> simp [List.lookup, hbe, ih hnd.2 k]
  | swap x y l =>
    intro hnd k
    obtain ⟨x1, x2⟩ := x
    obtain ⟨y1, y2⟩ := y
    simp only [List.map_cons, List.nodup_cons, List.mem_cons] at hnd
    have hxy : y1 ≠ x1 := fun he => hnd.1 (Or.inl he)
    cases hbx : (k == x1) with
    | true =>
      have hkx : k = x1 := eq_of_beq hbx
      have hby : (k == y1) = false := by
        refine beq_eq_false_iff_ne.mpr ?_
        intro he
        exact hxy (by rw [← he, ← hkx])
      simp [List.lookup, hbx, hby]
    | false =>
      cases hby : (k == y1) <;> simp [List.lookup, hbx, hby]
  | trans h1 h2 ih1 ih2 =>
    intro hnd k
    rw [ih1 hnd k, ih2 ((h1.map Prod.fst).nodup hnd) k]

/-- Filtering distributes over block expansion. -/
theorem filter_flatMap (l : List String)
    (g : String → List (List String)) (p : List String → Bool) :
    (l.flatMap g).filter p = l.flatMap (fun a => (g a).filter p) := by
  induction l with
  | nil => rfl
  | cons a l ih => rw [List.flatMap_cons, List.flatMap_cons,
      List.filter_append, ih]

/-- Block expansion of keys whose blocks are all filtered away is empty. -/
theorem flatMap_filter_nil (ks : List String)
    (g : String → List (List String)) (p : List String → Bool)
    (h : ∀ k ∈ ks, (g k).filter p = []) : ((ks.flatMap g).filter p) = [] := by
  induction ks with
  | nil => rfl
  | cons a ks ih =>
    rw [List.flatMap_cons, List.filter_append,
      h a (List.mem_cons_self a ks), List.nil_append]
    exact ih (fun k hk => h k (List.mem_cons_of_mem a hk))

/-- Filtering a block expansion down to one key that occurs exactly once
keeps exactly that block. -/
theorem flatMap_filter_single (ks : List String)
    (g : String → List (List String)) (k : String) (p : List String → Bool)
    (hcount : ks.count k = 1)
    (hother : ∀ k2 ∈ ks, k2 ≠ k → (g k2).filter p = [])
    (hself : (g k).filter p = g k) :
    (ks.flatMap g).filter p = g k := by
  induction ks with
  | nil => simp at hcount
  | cons a ks ih =>
    rw [List.flatMap_cons, List.filter_append]
    by_cases ha : a = k
    · subst ha
      rw [hself]
      have hc0 : ks.count a = 0 := by
        rw [List.count_cons_self] at hcount
        omega
      have hrest : ∀ k2 ∈ ks, (g k2).filter p = [] := by
        intro k2 hk2
        rcases eq_or_ne k2 a with he | hne
        · exact absurd (he ▸ hk2) (List.count_eq_zero.mp hc0)
        · exact hother k2 (List.mem_cons_of_mem a hk2) hne
      rw [flatMap_filter_nil ks g p hrest, List.append_nil]
    · rw [hother a (List.mem_cons_self a ks) ha, List.nil_append]
      refine ih ?_ (fun k2 h2 hne => hother k2 (List.mem_cons_of_mem a h2) hne)
      rwa [List.count_cons_of_ne (fun he => ha he.symm)] at hcount

end Ampbench

namespace Ampbench

/-- C8: a report entry whose outcome is the empty Result sequence
contributes exactly one flattened row, the synthesized [name, PASS, empty
message] row; the TSV formatter renders exactly the flattened rows after
the header and the HTML formatter renders exactly the flattened rows
minus the header, so both emit exactly this one PASS row for the rule. -/
theorem empty_outcome_single_pass_row (data : Report) (k : String)
    (hnd : (data.map Prod.fst).Nodup)
    (hm : (k, RuleOutcome.many []) ∈ data) :
    (flattenBody data).filter (fun row => row.headD "" == k)
      = [[k, "PASS", ""]] := by
  have hlook : data.lookup k = some (RuleOutcome.many []) :=
    lookup_of_mem_nodup data k _ hm hnd
  have hself : entryRows data k = [[k, "PASS", ""]] := by
    rw [entryRows, hlook]
    rfl
  have hkmem : k ∈ data.map Prod.fst := List.mem_map_of_mem Prod.fst hm
  have hcount : (List.insertionSort strLe (data.map Prod.fst)).count k = 1 := by
    rw [(List.perm_insertionSort strLe (data.map Prod.fst)).count_eq]
    exact List.count_eq_one_of_mem hnd hkmem
  rw [flattenBody,
    flatMap_filter_single _ _ k _ hcount ?_ ?_, hself]
  · intro k2 _ hne
    refine List.filter_eq_nil_iff.mpr ?_
    intro row hrow
    have := entryRows_name data k2 row hrow
    simp only [this]
    exact fun hb => hne (eq_of_beq hb)
  · rw [hself]
    simp

/-- Witness for the C8 theorem at a concrete one-entry report. -/
theorem empty_outcome_single_pass_row_witness :
    (flattenBody [("a", RuleOutcome.many [])]).filter
        (fun row => row.headD "" == "a") = [["a", "PASS", ""]] :=
  empty_outcome_single_pass_row [("a", RuleOutcome.many [])] "a"
    (by decide) (by decide)

/-- C10: the flattened rows are listed sorted by rule name (the keys are
already case-normalized by the engine), and the TSV, HTML and text
outputs are invariant under permutation of the report entries, so the
formatted output is a function of the report mapping alone, independent
of the order in which the rules settled. -/
theorem report_formatters_canonical (d1 d2 : Report) (env : JsEnv)
    (hnd : (d1.map Prod.fst).Nodup) (hperm : d1.Perm d2) :
    List.Sorted strLe ((flattenBody d1).map (fun row => row.headD ""))
      ∧ tsvOut d1 = tsvOut d2
      ∧ htmlOut env d1 = htmlOut env d2
      ∧ textOut d1 = textOut d2 := by
  have hkp : (d1.map Prod.fst).Perm (d2.map Prod.fst) := hperm.map Prod.fst
  have hsorteq : List.insertionSort strLe (d1.map Prod.fst)
      = List.insertionSort strLe (d2.map Prod.fst) :=
    List.eq_of_perm_of_sorted
      ((List.perm_insertionSort _ _).trans
        (hkp.trans (List.perm_insertionSort _ _).symm))
      (List.sorted_insertionSort _ _) (List.sorted_insertionSort _ _)
  have hent : entryRows d1 = entryRows d2 := by
    funext k
    rw [entryRows, entryRows, lookup_perm_nodup hperm hnd k]
  have hbody : flattenBody d1 = flattenBody d2 := by
    rw [flattenBody, flattenBody, hsorteq, hent]
  have hflat : flatten d1 = flatten d2 := by
    rw [flatten, flatten, hbody]
  refine ⟨?_, ?_, ?_, ?_⟩
  · rw [flattenBody]
    exact sorted_flatMap_names _ _ (List.sorted_insertionSort _ _)
      (fun k row h => entryRows_name d1 k row h)
  · unfold tsvOut
    rw [hflat]
  · unfold htmlOut
    rw [hflat]
  · unfold textOut
    rw [hflat]

/-- Witness for the C10 theorem at a concrete two-entry report given in
both settlement orders. -/
theorem report_formatters_canonical_witness :
    List.Sorted strLe ((flattenBody demoReportA).map (fun row => row.headD ""))
      ∧ tsvOut demoReportA = tsvOut demoReportB
      ∧ htmlOut idJsEnv demoReportA = htmlOut idJsEnv demoReportB
      ∧ textOut demoReportA = textOut demoReportB :=
  report_formatters_canonical demoReportA demoReportB idJsEnv (by decide)
    (List.Perm.swap ("a", RuleOutcome.many [])
      ("b", RuleOutcome.single ⟨Status.FAIL, some "m"⟩) [])

end Ampbench
